import Mathlib

/-
  Verification of the rest-hooks core against its specification.

  Source-derived part: the `SimpleResource` class (url construction, the six
  fetch-shape descriptors, and the abstract fetch operations).

  Spec-modelled part: the normalization/denormalization engine.  The engine
  itself is not among the provided sources (only its test file is), so it is
  modelled from the specification text (sections 4.1-4.3) and checked against
  the behaviours the test file pins down.
-/

set_option linter.unusedVariables false

/-- JavaScript values as they appear in payloads, parameters and the entity
table: null, undefined, booleans, numbers, strings, arrays and plain objects
(objects modelled as association lists of own enumerable properties). -/
inductive JSON where
  | null
  | undefined
  | bool (b : Bool)
  | num (n : Int)
  | str (s : String)
  | arr (elems : List JSON)
  | obj (fields : List (String × JSON))

/-- True exactly on the JavaScript value null. -/
def JSON.isNull : JSON → Bool
  | .null => true
  | _ => false

/-- True exactly on the JavaScript value undefined. -/
def JSON.isUndefined : JSON → Bool
  | .undefined => true
  | _ => false

/-- The check written in the source as value === undefined or value === null. -/
def nullish (v : JSON) : Bool := v.isNull || v.isUndefined

/-- Property access on an object modelled as an association list: the first
binding of the key wins, as for JavaScript own-property lookup. -/
def alookup {α : Type} : List (String × α) → String → Option α
  | [], _ => none
  | (k, v) :: rest, key => if k = key then some v else alookup rest key

/-- Replace the value stored under a key, keeping every key in place. -/
def setVal {α : Type} : List (String × α) → String → α → List (String × α)
  | [], _, _ => []
  | (k, w) :: rest, key, v =>
    (if k = key then (k, v) else (k, w)) :: setVal rest key v

/-- Delete a key from an object (the JavaScript delete operator). -/
def removeKey {α : Type} : List (String × α) → String → List (String × α)
  | [], _ => []
  | (k, w) :: rest, key =>
    if k = key then removeKey rest key else (k, w) :: removeKey rest key

/-- Whether an object has a binding for a key. -/
def hasKey {α : Type} : List (String × α) → String → Bool
  | [], _ => false
  | (k, _) :: rest, key => k == key || hasKey rest key

/-- Whether all keys of an association list are distinct (a real JavaScript
object never has duplicate keys; association lists can, so well-formedness
tracks this). -/
def nodupKeys {α : Type} : List (String × α) → Bool
  | [] => true
  | (k, _) :: rest => !(hasKey rest k) && nodupKeys rest

/-- Set a key, replacing an existing binding or appending a new one. -/
def upsert {α : Type} (l : List (String × α)) (key : String) (v : α) :
    List (String × α) :=
  if hasKey l key then setVal l key v else l ++ [(key, v)]

/-- Modelled from the spec: the schema variants of section 3 that the verified
properties exercise (Entity with a primary-key derivation function and nested
field schemas, fixed-shape Composite, homogeneous Collection, keyed Mapping).
The Union variant is omitted: no verified property mentions it.  The schema
definitions are not among the provided sources; only their test file is. -/
inductive Schema where
  | entity (name : String) (pk : JSON → Option String) (fields : List (String × Schema))
  | object (members : List (String × Schema))
  | collection (s : Schema)
  | mapping (s : Schema)

/-- The flat entity table: entity-type-name, then primary key (a string, as
all JavaScript object keys are), then the stored attribute record. -/
abbrev EntityTable := List (String × List (String × JSON))

/-- Attribute records and object bodies. -/
abbrev Attrs := List (String × JSON)

/-- The visited set threaded through denormalization, keyed by (type, key). -/
abbrev Visited := List (String × String)

/-- Coerce a raw identifier to an entity-table key the way JavaScript property
access coerces it to a string; non-identifier values have no key. -/
def toKey : JSON → Option String
  | .num n => some (toString n)
  | .str s => some s
  | _ => none

mutual

/-- Modelled from the spec: denormalize(input, schema, entityTableSnapshot) ->
(value, found) of section 4.3.  The engine itself is not among the provided
sources (only its test file is).  A null or undefined input is found with its
own value; an Entity looks up (type, key) in the snapshot and is not found when
absent, otherwise its declared fields are resolved with a visited set guarding
cycles; a Composite resolves each declared member inside a copy of the input,
leaving members without a schema untouched; Collections and Mappings map the
member schema over elements and values, the overall found flag being the
conjunction of the parts. -/
def denormalize (s : Schema) (input : JSON) (t : EntityTable) (vis : Visited) :
    JSON × Bool :=
  if nullish input then (input, true)
  else
    match s with
    | .entity name _pk fields =>
      match toKey input with
      | none => (.undefined, false)
      | some key =>
        match alookup t name with
        | none => (.undefined, false)
        | some row =>
          match alookup row key with
          | none => (.undefined, false)
          | some record =>
            if vis.contains (name, key) then (record, true)
            else
              match record with
              | .obj rf =>
                let r := denormMembers fields rf t ((name, key) :: vis)
                (.obj r.1, r.2)
              | other => (other, true)
    | .object members =>
      match input with
      | .obj kvs =>
        let r := denormMembers members kvs t vis
        (.obj r.1, r.2)
      | _ => (input, true)
    | .collection ms =>
      match input with
      | .arr elems =>
        let r := denormElems ms elems t vis
        (.arr r.1, r.2)
      | _ => (.undefined, false)
    | .mapping ms =>
      match input with
      | .obj kvs =>
        let r := denormValues ms kvs t vis
        (.obj r.1, r.2)
      | _ => (input, true)
termination_by (sizeOf s, 0)

/-- Modelled from the spec: member-wise denormalization of a fixed-shape
composite (also used for the declared nested fields of an entity record):
walk the declared members, resolving the corresponding value inside a copy of
the input object; members absent from the input contribute nothing and members
of the input without a schema pass through untouched. -/
def denormMembers (members : List (String × Schema)) (kvs : Attrs)
    (t : EntityTable) (vis : Visited) : Attrs × Bool :=
  match members with
  | [] => (kvs, true)
  | (k, ms) :: rest =>
    match alookup kvs k with
    | none => denormMembers rest kvs t vis
    | some v =>
      let r := denormalize ms v t vis
      let r2 := denormMembers rest (setVal kvs k r.1) t vis
      (r2.1, r.2 && r2.2)
termination_by (sizeOf members, 0)

/-- Modelled from the spec: element-wise denormalization of a homogeneous
collection, found being the conjunction over the elements (vacuously true for
an empty collection). -/
def denormElems (ms : Schema) (elems : List JSON) (t : EntityTable)
    (vis : Visited) : List JSON × Bool :=
  match elems with
  | [] => ([], true)
  | e :: rest =>
    let r := denormalize ms e t vis
    let r2 := denormElems ms rest t vis
    (r.1 :: r2.1, r.2 && r2.2)
termination_by (sizeOf ms, elems.length + 1)

/-- Modelled from the spec: value-wise denormalization of a keyed mapping,
keys preserved, found being the conjunction over the values. -/
def denormValues (ms : Schema) (kvs : Attrs) (t : EntityTable) (vis : Visited) :
    Attrs × Bool :=
  match kvs with
  | [] => ([], true)
  | (k, v) :: rest =>
    let r := denormalize ms v t vis
    let r2 := denormValues ms rest t vis
    ((k, r.1) :: r2.1, r.2 && r2.2)
termination_by (sizeOf ms, kvs.length + 1)

end

/-- The test file's denormalizeSimple entry point: denormalization starting
from an empty visited set. -/
def denormalizeSimple (input : JSON) (s : Schema) (t : EntityTable) :
    JSON × Bool :=
  denormalize s input t []

/-- Modelled from the spec: the error reported when the primary-key derivation
function returns undefined on a non-null input (section 6). -/
inductive SchemaError where
  | missingKey

/-- Merge a freshly normalized attribute record into an existing one with
shallow-merge semantics: new values win per field, fields absent from the new
payload are preserved. -/
def mergeFields (old fresh : Attrs) : Attrs :=
  fresh.foldl (fun acc p => upsert acc p.1 p.2) old

/-- Store an entity's normalized attribute record in the table under
(type, key), shallow-merging with any prior record. -/
def tableSet (t : EntityTable) (name key : String) (record : JSON) :
    EntityTable :=
  let row := (alookup t name).getD []
  let merged :=
    match alookup row key, record with
    | some (.obj o), .obj n => JSON.obj (mergeFields o n)
    | _, r => r
  upsert t name (upsert row key merged)

mutual

/-- Modelled from the spec: normalize(rawValue, schema) of section 4.1.  The
engine itself is not among the provided sources (only its test file is).  An
Entity computes its primary key (failing with SchemaError when the derivation
returns undefined on an object input), recursively normalizes its declared
nested fields, merges the record into the table and returns the key reference;
a Composite normalizes each declared member inside a copy of the input,
dropping members whose normalized value is null or undefined and leaving
members without a schema untouched; a Mapping does the same per value,
dropping null/undefined results; a Collection maps over elements. -/
def normalizeV (s : Schema) (v : JSON) (t : EntityTable) :
    Except SchemaError (JSON × EntityTable) :=
  match s with
  | .entity name pk fields =>
    match v with
    | .obj attrs =>
      match pk (.obj attrs) with
      | none => .error .missingKey
      | some key =>
        match normalizeFields fields attrs t with
        | .error e => .error e
        | .ok (rf, t2) => .ok (.str key, tableSet t2 name key (.obj rf))
    | other => .ok (other, t)
  | .object members =>
    match v with
    | .obj kvs =>
      match normalizeMembers members kvs t with
      | .error e => .error e
      | .ok (res, t2) => .ok (.obj res, t2)
    | other => .ok (other, t)
  | .collection ms =>
    match v with
    | .arr elems =>
      match normalizeElems ms elems t with
      | .error e => .error e
      | .ok (res, t2) => .ok (.arr res, t2)
    | other => .ok (other, t)
  | .mapping ms =>
    match v with
    | .obj kvs =>
      match normalizeValues ms kvs t with
      | .error e => .error e
      | .ok (res, t2) => .ok (.obj res, t2)
    | other => .ok (other, t)
termination_by (sizeOf s, 0)

/-- Modelled from the spec: member-wise normalization of a fixed-shape
composite.  Declared members present in the input are normalized in place;
when the normalized value is null or undefined the member is deleted from the
result instead of stored; input members without a schema are never touched. -/
def normalizeMembers (members : List (String × Schema)) (kvs : Attrs)
    (t : EntityTable) : Except SchemaError (Attrs × EntityTable) :=
  match members with
  | [] => .ok (kvs, t)
  | (k, ms) :: rest =>
    match alookup kvs k with
    | none => normalizeMembers rest kvs t
    | some v =>
      match normalizeV ms v t with
      | .error e => .error e
      | .ok (nv, t2) =>
        normalizeMembers rest
          (if nullish nv then removeKey kvs k else setVal kvs k nv) t2
termination_by (sizeOf members, 0)

/-- Modelled from the spec: normalization of the declared nested fields of an
entity's attribute record (no dropping here; the drop rule of section 4.1 is
stated for Composite and Mapping results only). -/
def normalizeFields (fields : List (String × Schema)) (kvs : Attrs)
    (t : EntityTable) : Except SchemaError (Attrs × EntityTable) :=
  match fields with
  | [] => .ok (kvs, t)
  | (k, fs) :: rest =>
    match alookup kvs k with
    | none => normalizeFields rest kvs t
    | some v =>
      match normalizeV fs v t with
      | .error e => .error e
      | .ok (nv, t2) => normalizeFields rest (setVal kvs k nv) t2
termination_by (sizeOf fields, 0)

/-- Modelled from the spec: element-wise normalization of a collection, order
preserved. -/
def normalizeElems (ms : Schema) (elems : List JSON) (t : EntityTable) :
    Except SchemaError (List JSON × EntityTable) :=
  match elems with
  | [] => .ok ([], t)
  | e :: rest =>
    match normalizeV ms e t with
    | .error er => .error er
    | .ok (nv, t2) =>
      match normalizeElems ms rest t2 with
      | .error er => .error er
      | .ok (res, t3) => .ok (nv :: res, t3)
termination_by (sizeOf ms, elems.length + 1)

/-- Modelled from the spec: value-wise normalization of a keyed mapping; a
value normalizing to null or undefined is dropped from the result. -/
def normalizeValues (ms : Schema) (kvs : Attrs) (t : EntityTable) :
    Except SchemaError (Attrs × EntityTable) :=
  match kvs with
  | [] => .ok ([], t)
  | (k, v) :: rest =>
    match normalizeV ms v t with
    | .error er => .error er
    | .ok (nv, t2) =>
      match normalizeValues ms rest t2 with
      | .error er => .error er
      | .ok (res, t3) => .ok (if nullish nv then res else (k, nv) :: res, t3)
termination_by (sizeOf ms, kvs.length + 1)

end

/-- Modelled from the spec: the single normalization entry point of section
4.2, delegating to the root schema against a caller-supplied table (named
normalize in the sources; renamed here because Mathlib already declares a
normalize). -/
def normalizeTop (payload : JSON) (s : Schema) (t : EntityTable) :
    Except SchemaError (JSON × EntityTable) :=
  normalizeV s payload t

mutual

/-- Modelled from the spec: conversion of a plain value tree to the
persistent/immutable representation (Immutable.fromJS in the test file).  The
immutable representation of an object is modelled as the same association list
laid out in reverse, a concretely different container layout with the same
key-lookup contract; arrays keep their order. -/
def fromJS : JSON → JSON
  | .obj kvs => .obj (fromJSPairs kvs).reverse
  | .arr l => .arr (fromJSList l)
  | v => v

/-- Pointwise conversion of object members to the immutable representation. -/
def fromJSPairs : List (String × JSON) → List (String × JSON)
  | [] => []
  | (k, v) :: rest => (k, fromJS v) :: fromJSPairs rest

/-- Pointwise conversion of array elements to the immutable representation. -/
def fromJSList : List JSON → List JSON
  | [] => []
  | v :: rest => fromJS v :: fromJSList rest

end

/-- Immutable representation of a single entity-type row of the table. -/
def fromJSRow (row : Attrs) : Attrs :=
  (row.map (fun p => (p.1, fromJS p.2))).reverse

/-- Immutable representation of a whole entity-table snapshot. -/
def fromJSTable (t : EntityTable) : EntityTable :=
  (t.map (fun p => (p.1, fromJSRow p.2))).reverse

mutual

/-- Well-formedness of a value tree: every object has distinct keys (as every
real JavaScript object does) and its members are well formed in turn. -/
def wfJson : JSON → Bool
  | .obj kvs => nodupKeys kvs && wfPairs kvs
  | .arr l => wfList l
  | _ => true

/-- Well-formedness of all member values of an object. -/
def wfPairs : List (String × JSON) → Bool
  | [] => true
  | (_, v) :: rest => wfJson v && wfPairs rest

/-- Well-formedness of all elements of an array. -/
def wfList : List JSON → Bool
  | [] => true
  | v :: rest => wfJson v && wfList rest

end

/-- Well-formedness of one entity-type row: distinct primary keys, well-formed
records. -/
def wfRow (row : Attrs) : Bool := nodupKeys row && wfPairs row

/-- Well-formedness of a table snapshot: distinct type names, well-formed
rows. -/
def wfTable (t : EntityTable) : Bool :=
  nodupKeys t && t.all (fun p => wfRow p.2)

mutual

/-- Well-formedness of a schema: the declared members of a composite and the
declared nested fields of an entity have distinct names. -/
def wfSchema : Schema → Bool
  | .entity _ _ fields => nodupKeys fields && wfSchemaList fields
  | .object members => nodupKeys members && wfSchemaList members
  | .collection s => wfSchema s
  | .mapping s => wfSchema s

/-- Well-formedness of all member schemas of a list. -/
def wfSchemaList : List (String × Schema) → Bool
  | [] => true
  | (_, s) :: rest => wfSchema s && wfSchemaList rest

end

/-- The representation-independence property of one schema: against the
immutable representation of any well-formed input and table snapshot,
denormalization returns the immutable representation of the plain result with
the identical found flag. -/
def DenormAgrees (s : Schema) : Prop :=
  ∀ (input : JSON) (t : EntityTable) (vis : Visited),
    wfJson input = true → wfTable t = true →
    denormalize s (fromJS input) (fromJSTable t) vis
      = (fromJS (denormalize s input t vis).1, (denormalize s input t vis).2)

/-- Induction over schemas that hands each composite and entity case the
hypothesis for every declared member schema (the auto-generated recursor of
the nested inductive is awkward to use directly). -/
def schemaInduction (motive : Schema → Prop)
    (he : ∀ n pk fields, (∀ p ∈ fields, motive p.2) → motive (.entity n pk fields))
    (ho : ∀ members, (∀ p ∈ members, motive p.2) → motive (.object members))
    (hc : ∀ s, motive s → motive (.collection s))
    (hm : ∀ s, motive s → motive (.mapping s)) : ∀ s, motive s
  | .entity n pk fields =>
    he n pk fields (fun p hp => schemaInduction motive he ho hc hm p.2)
  | .object members =>
    ho members (fun p hp => schemaInduction motive he ho hc hm p.2)
  | .collection s => hc s (schemaInduction motive he ho hc hm s)
  | .mapping s => hm s (schemaInduction motive he ho hc hm s)
termination_by s => sizeOf s
decreasing_by
  all_goals simp_wf
  all_goals
    try (have h1 := List.sizeOf_lt_of_mem hp; obtain ⟨a, b⟩ := p;
         simp at h1 ⊢; omega)

/-- Parameter objects passed to url construction and fetch shapes. -/
abbrev Params := List (String × JSON)

/-- A SimpleResource class, characterized by the data its static url-related
methods consult: the urlRoot base and the primary-key derivation pk (the class
body of src/unnamed/part_000 lines 21-33; pk is inherited abstract state, so
it is a field here). -/
structure SimpleResource where
  urlRoot : String
  pk : Params → Option String

/-- The globally unique identifier of a SimpleResource class (the static key
getter, src/unnamed/part_000 lines 31-33). -/
def SimpleResource.key (R : SimpleResource) : String := R.urlRoot

/-- The trailing-slash test the source writes as urlRoot.endsWith('/'),
modelled as a last-character check so that it evaluates inside the kernel. -/
def endsWithSlash (s : String) : Bool := s.data.getLast? == some '/'

/-- The pk-based fallback of static url (src/unnamed/part_000 lines 60-66):
urlRoot, a slash unless urlRoot already ends with one, and the pk; bare
urlRoot when pk is undefined. -/
def urlOfPk (R : SimpleResource) (p : Params) : String :=
  match R.pk p with
  | some k =>
    if endsWithSlash R.urlRoot then R.urlRoot ++ k else R.urlRoot ++ "/" ++ k
  | none => R.urlRoot

/-- The static url method (src/unnamed/part_000 lines 49-67): an own url
property holding a truthy string short-circuits everything, then the pk
fallback applies. -/
def SimpleResource.url (R : SimpleResource) (p : Params) : String :=
  match alookup p "url" with
  | some (.str s) => if s = "" then urlOfPk R p else s
  | _ => urlOfPk R p

/-- The static listUrl method (src/unnamed/part_000 lines 73-80): urlRoot
alone for empty search params, else urlRoot, a question mark and the
serialized params.  The paramsToString helper is imported from a module that
is not among the provided sources, so it is threaded as the pts argument. -/
def SimpleResource.listUrl (pts : Params → String) (R : SimpleResource)
    (p : Params) : String :=
  if p.isEmpty then R.urlRoot else R.urlRoot ++ "?" ++ pts p

/-- The error thrown when an abstract operation is invoked without a concrete
override (src/unnamed/part_000 line 89). -/
inductive SRError where
  | notImplementedError

/-- The static fetch method of a class that has not overridden it
(src/unnamed/part_000 lines 83-90): it unconditionally throws
NotImplementedError. -/
def SimpleResource.fetch (method url : String) (body : Option JSON) :
    Except SRError JSON :=
  .error .notImplementedError

/-- The static fetchResponse method of a class that has not overridden it
(src/unnamed/part_000 lines 93-100): it unconditionally throws
NotImplementedError. -/
def SimpleResource.fetchResponse (method url : String) (body : Option JSON) :
    Except SRError JSON :=
  .error .notImplementedError

/-- The static getFetchOptions default (src/unnamed/part_000 lines 103-105):
it returns undefined. -/
def SimpleResource.getFetchOptions (R : SimpleResource) : Option JSON := none

/-- The static getFetchInit default (src/unnamed/part_000 lines 108-110). -/
def SimpleResource.getFetchInit (R : SimpleResource) : Option JSON :=
  R.getFetchOptions

/-- The operation kind of a fetch shape. -/
inductive ShapeType where
  | read
  | mutate
deriving DecidableEq

/-- The schema slot of a fetch shape as the source builds it: the resource
class itself, an array literal wrapping a schema (a Collection), or the
schemas.Delete tombstone wrapper. -/
inductive ShapeSchema where
  | entity
  | list (s : ShapeSchema)
  | delete (s : ShapeSchema)
deriving DecidableEq

/-- A fetch-shape descriptor as returned by the six static shape methods:
operation kind, schema, options, cache-key function and fetch function. -/
structure FetchShape where
  type : ShapeType
  schema : ShapeSchema
  options : Option JSON
  getFetchKey : Params → String
  fetch : Params → Option JSON → Except SRError JSON

/-- detailShape (src/unnamed/part_000 lines 114-130). -/
def detailShape (R : SimpleResource) : FetchShape :=
  ⟨.read, .entity, R.getFetchOptions,
    fun params => "GET " ++ R.url params,
    fun params _ => SimpleResource.fetch "get" (R.url params) none⟩

/-- listShape (src/unnamed/part_000 lines 133-149); its schema is the array
literal wrapping the class. -/
def listShape (pts : Params → String) (R : SimpleResource) : FetchShape :=
  ⟨.read, .list .entity, R.getFetchOptions,
    fun params => "GET " ++ SimpleResource.listUrl pts R params,
    fun params _ =>
      SimpleResource.fetch "get" (SimpleResource.listUrl pts R params) none⟩

/-- createShape (src/unnamed/part_000 lines 152-174). -/
def createShape (pts : Params → String) (R : SimpleResource) : FetchShape :=
  ⟨.mutate, .entity, R.getFetchOptions,
    fun params => "POST " ++ SimpleResource.listUrl pts R params,
    fun params body =>
      SimpleResource.fetch "post" (SimpleResource.listUrl pts R params) body⟩

/-- updateShape (src/unnamed/part_000 lines 177-199). -/
def updateShape (R : SimpleResource) : FetchShape :=
  ⟨.mutate, .entity, R.getFetchOptions,
    fun params => "PUT " ++ R.url params,
    fun params body => SimpleResource.fetch "put" (R.url params) body⟩

/-- partialUpdateShape (src/unnamed/part_000 lines 202-224). -/
def partialUpdateShape (R : SimpleResource) : FetchShape :=
  ⟨.mutate, .entity, R.getFetchOptions,
    fun params => "PATCH " ++ R.url params,
    fun params body => SimpleResource.fetch "patch" (R.url params) body⟩

/-- deleteShape (src/unnamed/part_000 lines 227-242); its schema is the
schemas.Delete tombstone wrapping the class, and its fetch resolves with the
params object. -/
def deleteShape (R : SimpleResource) : FetchShape :=
  ⟨.mutate, .delete .entity, R.getFetchOptions,
    fun params => "DELETE " ++ R.url params,
    fun params _ =>
      (SimpleResource.fetch "delete" (R.url params) none).map
        (fun _ => JSON.obj params)⟩

/-- The cache key the request coordinator computes for one invocation carrying
a request body: the shape's getFetchKey applied to the params (every
getFetchKey in src/unnamed/part_000 takes the params only; no body reaches
it). -/
def requestKey (S : FetchShape) (p : Params) (body : Option JSON) : String :=
  S.getFetchKey p

/-- The default primary-key derivation used by the test file's entities: the
id attribute, coerced to a string key. -/
def pkId : JSON → Option String
  | .obj attrs => (alookup attrs "id").bind toKey
  | _ => none

/-- A concrete resource whose pk never resolves, for witnesses. -/
def resourceNoPk : SimpleResource := ⟨"/user", fun _ => none⟩

/-- A concrete resource whose pk is constantly the string 5, for witnesses. -/
def resourcePk5 : SimpleResource := ⟨"/user", fun _ => some "5"⟩

/-- Claim C1: each descriptor shape's cache key is the operation verb, a
space, and the resolved URL: GET with url for detailShape, GET with listUrl
for listShape, POST with listUrl for createShape, PUT with url for
updateShape, PATCH with url for partialUpdateShape and DELETE with url for
deleteShape. -/
theorem claim_C1 (pts : Params → String) (R : SimpleResource) (p : Params) :
    (detailShape R).getFetchKey p = "GET " ++ R.url p
    ∧ (listShape pts R).getFetchKey p = "GET " ++ SimpleResource.listUrl pts R p
    ∧ (createShape pts R).getFetchKey p = "POST " ++ SimpleResource.listUrl pts R p
    ∧ (updateShape R).getFetchKey p = "PUT " ++ R.url p
    ∧ (partialUpdateShape R).getFetchKey p = "PATCH " ++ R.url p
    ∧ (deleteShape R).getFetchKey p = "DELETE " ++ R.url p :=
  ⟨rfl, rfl, rfl, rfl, rfl, rfl⟩

/-- Claim C2: the cache key of every mutation shape is computed from the verb
and the resolved URL only; two invocations with the same params and different
bodies produce the identical (colliding) key. -/
theorem claim_C2 (pts : Params → String) (R : SimpleResource) (p : Params)
    (b1 b2 : Option JSON) :
    (requestKey (createShape pts R) p b1 = requestKey (createShape pts R) p b2
      ∧ requestKey (createShape pts R) p b1
          = "POST " ++ SimpleResource.listUrl pts R p)
    ∧ (requestKey (updateShape R) p b1 = requestKey (updateShape R) p b2
      ∧ requestKey (updateShape R) p b1 = "PUT " ++ R.url p)
    ∧ (requestKey (partialUpdateShape R) p b1
          = requestKey (partialUpdateShape R) p b2
      ∧ requestKey (partialUpdateShape R) p b1 = "PATCH " ++ R.url p)
    ∧ (requestKey (deleteShape R) p b1 = requestKey (deleteShape R) p b2
      ∧ requestKey (deleteShape R) p b1 = "DELETE " ++ R.url p) :=
  ⟨⟨rfl, rfl⟩, ⟨rfl, rfl⟩, ⟨rfl, rfl⟩, ⟨rfl, rfl⟩⟩

/-- Claim C7: deleteShape is a mutation whose schema is the Delete tombstone
wrapping the resource, not the plain entity schema. -/
theorem claim_C7 (R : SimpleResource) :
    (deleteShape R).type = .mutate
    ∧ (deleteShape R).schema = .delete .entity
    ∧ (deleteShape R).schema ≠ .entity :=
  ⟨rfl, rfl, by simp [deleteShape]⟩

/-- Claim C8: listShape is a read whose schema wraps the entity in a
collection, while detailShape's schema is the bare entity schema. -/
theorem claim_C8 (pts : Params → String) (R : SimpleResource) :
    (listShape pts R).type = .read
    ∧ (listShape pts R).schema = .list .entity
    ∧ (detailShape R).type = .read
    ∧ (detailShape R).schema = .entity :=
  ⟨rfl, rfl, rfl, rfl⟩

/-- Claim C9: the non-overridden static fetch and fetchResponse throw
NotImplementedError for every method, url and body; they never produce a
result. -/
theorem claim_C9 (method url : String) (body : Option JSON) :
    SimpleResource.fetch method url body = .error .notImplementedError
    ∧ SimpleResource.fetchResponse method url body
        = .error .notImplementedError :=
  ⟨rfl, rfl⟩

/-- Claim C10: static url returns a truthy string own url property unchanged;
otherwise, when pk resolves, urlRoot joined with the pk (the slash omitted
when urlRoot already ends with one); otherwise bare urlRoot. -/
theorem claim_C10 (R : SimpleResource) (p : Params) :
    (∀ s, alookup p "url" = some (.str s) → s ≠ "" → R.url p = s)
    ∧ ((∀ s, alookup p "url" = some (.str s) → s = "") →
        (∀ k, R.pk p = some k →
          R.url p = if endsWithSlash R.urlRoot then R.urlRoot ++ k
                    else R.urlRoot ++ "/" ++ k)
        ∧ (R.pk p = none → R.url p = R.urlRoot)) := by
  constructor
  · intro s hl hs
    simp only [SimpleResource.url]
    rw [hl]
    simp [hs]
  · intro hno
    have hfall : R.url p = urlOfPk R p := by
      simp only [SimpleResource.url]
      cases hl : alookup p "url" with
      | none => rfl
      | some v =>
        cases v with
        | str s => simp [hno s hl]
        | null => rfl
        | undefined => rfl
        | bool b => rfl
        | num n => rfl
        | arr l => rfl
        | obj kvs => rfl
    constructor
    · intro k hk
      rw [hfall]
      simp only [urlOfPk]
      rw [hk]
    · intro hk
      rw [hfall]
      simp only [urlOfPk]
      rw [hk]

/-- Witness for claim C10: each branch discharged at a concrete resource and
params object. -/
theorem claim_C10_witness :
    (alookup [("url", JSON.str "/cus")] "url" = some (JSON.str "/cus")
      ∧ "/cus" ≠ ""
      ∧ SimpleResource.url resourceNoPk [("url", JSON.str "/cus")] = "/cus")
    ∧ (resourcePk5.pk [] = some "5"
      ∧ SimpleResource.url resourcePk5 [] = "/user/5")
    ∧ (resourceNoPk.pk [] = none
      ∧ SimpleResource.url resourceNoPk [] = "/user") := by
  refine ⟨⟨rfl, by decide,
      (claim_C10 resourceNoPk _).1 "/cus" rfl (by decide)⟩, ⟨rfl, ?_⟩,
      ⟨rfl, ?_⟩⟩
  · have h := ((claim_C10 resourcePk5 []).2
      (fun s h => by simp [alookup] at h)).1 "5" rfl
    rw [h]
    decide
  · exact ((claim_C10 resourceNoPk []).2
      (fun s h => by simp [alookup] at h)).2 rfl

/-- Claim C3: denormalizing an object with an entity member against an empty
table is not found, and the identifier 0 resolves as found against a table
holding the entity under key 0 (0 is not treated as falsy or absent). -/
theorem claim_C3 :
    (denormalizeSimple (.obj [("user", .num 1)])
        (.object [("user", .entity "user" pkId [])]) []).2 = false
    ∧ denormalizeSimple (.obj [("user", .num 0)])
        (.object [("user", .entity "user" pkId [])])
        [("user", [("0", .obj [("id", .num 0), ("name", .str "Chancho")])])]
      = (.obj [("user", .obj [("id", .num 0), ("name", .str "Chancho")])],
         true) := by
  constructor
  · simp [denormalizeSimple, denormalize, denormMembers, alookup, nullish,
      JSON.isNull, JSON.isUndefined, toKey]
  · simp +decide [denormalizeSimple, denormalize, denormMembers, alookup,
      nullish, JSON.isNull, JSON.isUndefined, toKey, setVal]

/-- Claim C4: a null composite member is found with value null for every
entity table, the declared member schema notwithstanding. -/
theorem claim_C4 (t : EntityTable) :
    denormalizeSimple (.obj [("item", .null)])
      (.object [("item", .object [("user", .entity "user" pkId [])])]) t
      = (.obj [("item", .null)], true) := by
  simp [denormalizeSimple, denormalize, denormMembers, alookup, nullish,
    JSON.isNull, JSON.isUndefined, setVal]

/-- Unfolding lemma: lookup in the empty object. -/
theorem alookup_nil {α : Type} (k : String) :
    alookup ([] : List (String × α)) k = none := rfl

/-- Unfolding lemma: lookup in a non-empty object. -/
theorem alookup_cons {α : Type} (k0 : String) (v0 : α) (rest : List (String × α))
    (k : String) :
    alookup ((k0, v0) :: rest) k
      = if k0 = k then some v0 else alookup rest k := rfl

/-- Unfolding lemma: update of the empty object. -/
theorem setVal_nil {α : Type} (key : String) (v : α) :
    setVal ([] : List (String × α)) key v = [] := rfl

/-- Unfolding lemma: update of a non-empty object. -/
theorem setVal_cons {α : Type} (k0 : String) (w : α) (rest : List (String × α))
    (key : String) (v : α) :
    setVal ((k0, w) :: rest) key v
      = (if k0 = key then (k0, v) else (k0, w)) :: setVal rest key v := rfl

/-- Unfolding lemma: deletion from the empty object. -/
theorem removeKey_nil {α : Type} (key : String) :
    removeKey ([] : List (String × α)) key = [] := rfl

/-- Unfolding lemma: deletion from a non-empty object. -/
theorem removeKey_cons {α : Type} (k0 : String) (w : α)
    (rest : List (String × α)) (key : String) :
    removeKey ((k0, w) :: rest) key
      = if k0 = key then removeKey rest key
        else (k0, w) :: removeKey rest key := rfl

/-- Unfolding lemma: key test on the empty object. -/
theorem hasKey_nil {α : Type} (key : String) :
    hasKey ([] : List (String × α)) key = false := rfl

/-- Unfolding lemma: key test on a non-empty object. -/
theorem hasKey_cons {α : Type} (k0 : String) (w : α) (rest : List (String × α))
    (key : String) :
    hasKey ((k0, w) :: rest) key = (k0 == key || hasKey rest key) := rfl

/-- Unfolding lemma: key distinctness of a non-empty object. -/
theorem nodupKeys_cons {α : Type} (k0 : String) (w : α)
    (rest : List (String × α)) :
    nodupKeys ((k0, w) :: rest) = (!(hasKey rest k0) && nodupKeys rest) := rfl

/-- Lookup after updating a different key is unchanged. -/
theorem alookup_setVal_ne {α : Type} (l : List (String × α)) (key k : String)
    (v : α) (h : k ≠ key) : alookup (setVal l key v) k = alookup l k := by
  induction l with
  | nil => rfl
  | cons p rest ih =>
    obtain ⟨k0, v0⟩ := p
    rw [setVal_cons]
    by_cases hk : k0 = key
    · rw [if_pos hk, alookup_cons, alookup_cons,
        if_neg (fun hc => h (hc.symm.trans hk)), if_neg (fun hc => h (hc.symm.trans hk))]
      exact ih
    · rw [if_neg hk, alookup_cons, alookup_cons]
      by_cases hk2 : k0 = k
      · rw [if_pos hk2, if_pos hk2]
      · rw [if_neg hk2, if_neg hk2]
        exact ih

/-- Lookup of an updated key that was present returns the new value. -/
theorem alookup_setVal_present {α : Type} (l : List (String × α))
    (key : String) (v w : α) (h : alookup l key = some w) :
    alookup (setVal l key v) key = some v := by
  induction l with
  | nil => simp [alookup_nil] at h
  | cons p rest ih =>
    obtain ⟨k0, v0⟩ := p
    rw [setVal_cons]
    by_cases hk : k0 = key
    · rw [if_pos hk, alookup_cons, if_pos hk]
    · rw [alookup_cons, if_neg hk] at h
      rw [if_neg hk, alookup_cons, if_neg hk]
      exact ih h

/-- Lookup of a deleted key fails. -/
theorem alookup_removeKey_self {α : Type} (l : List (String × α))
    (key : String) : alookup (removeKey l key) key = none := by
  induction l with
  | nil => rfl
  | cons p rest ih =>
    obtain ⟨k0, v0⟩ := p
    rw [removeKey_cons]
    by_cases hk : k0 = key
    · rw [if_pos hk]
      exact ih
    · rw [if_neg hk, alookup_cons, if_neg hk]
      exact ih

/-- Lookup after deleting a different key is unchanged. -/
theorem alookup_removeKey_ne {α : Type} (l : List (String × α))
    (key k : String) (h : k ≠ key) :
    alookup (removeKey l key) k = alookup l k := by
  induction l with
  | nil => rfl
  | cons p rest ih =>
    obtain ⟨k0, v0⟩ := p
    rw [removeKey_cons]
    by_cases hk : k0 = key
    · rw [if_pos hk, alookup_cons, if_neg (fun hc => h (hc.symm.trans hk))]
      exact ih
    · rw [if_neg hk, alookup_cons, alookup_cons]
      by_cases hk2 : k0 = k
      · rw [if_pos hk2, if_pos hk2]
      · rw [if_neg hk2, if_neg hk2]
        exact ih

/-- Keys absent from the input stay absent through member normalization. -/
theorem normMembers_none (members : List (String × Schema)) :
    ∀ (kvs : Attrs) (t : EntityTable) (res : Attrs) (t2 : EntityTable)
      (k : String),
      normalizeMembers members kvs t = .ok (res, t2) →
      alookup kvs k = none → alookup res k = none := by
  induction members with
  | nil =>
    intro kvs t res t2 k h hk
    simp only [normalizeMembers, Except.ok.injEq, Prod.mk.injEq] at h
    rw [← h.1]
    exact hk
  | cons q rest ih =>
    obtain ⟨k0, ms⟩ := q
    intro kvs t res t2 k h hk
    simp only [normalizeMembers] at h
    cases hl : alookup kvs k0 with
    | none =>
      simp only [hl] at h
      exact ih kvs t res t2 k h hk
    | some v =>
      simp only [hl] at h
      cases hn : normalizeV ms v t with
      | error e => simp [hn] at h
      | ok q2 =>
        obtain ⟨nv, t3⟩ := q2
        simp only [hn] at h
        have hkk : k ≠ k0 := by
          intro he
          rw [he, hl] at hk
          exact Option.noConfusion hk
        apply ih _ t3 res t2 k h
        by_cases hnv : nullish nv = true
        · rw [if_pos hnv, alookup_removeKey_ne _ _ _ hkk]
          exact hk
        · rw [if_neg hnv, alookup_setVal_ne _ _ _ _ hkk]
          exact hk

/-- Member normalization preserves the invariant that a key is either absent
or holds a non-nullish value: every write it performs is either a deletion or
a write of a non-nullish value. -/
theorem normMembers_keep (members : List (String × Schema)) :
    ∀ (kvs : Attrs) (t : EntityTable) (res : Attrs) (t2 : EntityTable)
      (k : String),
      normalizeMembers members kvs t = .ok (res, t2) →
      (alookup kvs k = none
        ∨ ∃ v, alookup kvs k = some v ∧ nullish v = false) →
      (alookup res k = none
        ∨ ∃ v, alookup res k = some v ∧ nullish v = false) := by
  induction members with
  | nil =>
    intro kvs t res t2 k h hinv
    simp only [normalizeMembers, Except.ok.injEq, Prod.mk.injEq] at h
    rw [← h.1]
    exact hinv
  | cons q rest ih =>
    obtain ⟨k0, ms⟩ := q
    intro kvs t res t2 k h hinv
    simp only [normalizeMembers] at h
    cases hl : alookup kvs k0 with
    | none =>
      simp only [hl] at h
      exact ih kvs t res t2 k h hinv
    | some v =>
      simp only [hl] at h
      cases hn : normalizeV ms v t with
      | error e => simp [hn] at h
      | ok q2 =>
        obtain ⟨nv, t3⟩ := q2
        simp only [hn] at h
        apply ih _ t3 res t2 k h
        by_cases hkk : k = k0
        · subst hkk
          by_cases hnv : nullish nv = true
          · left
            rw [if_pos hnv]
            exact alookup_removeKey_self _ _
          · right
            refine ⟨nv, ?_, by simpa using hnv⟩
            rw [if_neg hnv]
            exact alookup_setVal_present _ _ _ _ hl
        · have heq : alookup
              (if nullish nv = true then removeKey kvs k0 else setVal kvs k0 nv)
              k = alookup kvs k := by
            by_cases hnv : nullish nv = true
            · rw [if_pos hnv, alookup_removeKey_ne _ _ _ hkk]
            · rw [if_neg hnv, alookup_setVal_ne _ _ _ _ hkk]
          rw [heq]
          exact hinv

/-- After member normalization, every declared member key is either absent
from the result or bound to a non-nullish value. -/
theorem normMembers_memberVals (members : List (String × Schema)) :
    ∀ (kvs : Attrs) (t : EntityTable) (res : Attrs) (t2 : EntityTable),
      normalizeMembers members kvs t = .ok (res, t2) →
      ∀ k ms, (k, ms) ∈ members →
        (alookup res k = none
          ∨ ∃ v, alookup res k = some v ∧ nullish v = false) := by
  induction members with
  | nil =>
    intro kvs t res t2 h k ms hmem
    exact absurd hmem (List.not_mem_nil _)
  | cons q rest ih =>
    obtain ⟨k0, ms0⟩ := q
    intro kvs t res t2 h k ms hmem
    simp only [normalizeMembers] at h
    cases hl : alookup kvs k0 with
    | none =>
      simp only [hl] at h
      rcases List.mem_cons.mp hmem with hhead | htail
      · have hk : k = k0 := by
          have := congrArg Prod.fst hhead
          simpa using this
        left
        subst hk
        exact normMembers_none rest kvs t res t2 k h hl
      · exact ih kvs t res t2 h k ms htail
    | some v =>
      simp only [hl] at h
      cases hn : normalizeV ms0 v t with
      | error e => simp [hn] at h
      | ok q2 =>
        obtain ⟨nv, t3⟩ := q2
        simp only [hn] at h
        rcases List.mem_cons.mp hmem with hhead | htail
        · have hk : k = k0 := by
            have := congrArg Prod.fst hhead
            simpa using this
          subst hk
          apply normMembers_keep rest _ t3 res t2 k h
          by_cases hnv : nullish nv = true
          · left
            rw [if_pos hnv]
            exact alookup_removeKey_self _ _
          · right
            refine ⟨nv, ?_, by simpa using hnv⟩
            rw [if_neg hnv]
            exact alookup_setVal_present _ _ _ _ hl
        · exact ih _ t3 res t2 h k ms htail

/-- Member normalization leaves every key without a declared schema exactly
as it was in the input. -/
theorem normMembers_passthrough (members : List (String × Schema)) :
    ∀ (kvs : Attrs) (t : EntityTable) (res : Attrs) (t2 : EntityTable)
      (k : String),
      normalizeMembers members kvs t = .ok (res, t2) →
      hasKey members k = false → alookup res k = alookup kvs k := by
  induction members with
  | nil =>
    intro kvs t res t2 k h hk
    simp only [normalizeMembers, Except.ok.injEq, Prod.mk.injEq] at h
    rw [← h.1]
  | cons q rest ih =>
    obtain ⟨k0, ms0⟩ := q
    intro kvs t res t2 k h hk
    rw [hasKey_cons] at hk
    have hk0 : k ≠ k0 := by
      intro he
      subst he
      simp at hk
    have hkrest : hasKey rest k = false := by
      rcases Bool.or_eq_false_iff.mp hk with ⟨_, h2⟩
      exact h2
    simp only [normalizeMembers] at h
    cases hl : alookup kvs k0 with
    | none =>
      simp only [hl] at h
      exact ih kvs t res t2 k h hkrest
    | some v =>
      simp only [hl] at h
      cases hn : normalizeV ms0 v t with
      | error e => simp [hn] at h
      | ok q2 =>
        obtain ⟨nv, t3⟩ := q2
        simp only [hn] at h
        have heq : alookup
            (if nullish nv = true then removeKey kvs k0 else setVal kvs k0 nv)
            k = alookup kvs k := by
          by_cases hnv : nullish nv = true
          · rw [if_pos hnv, alookup_removeKey_ne _ _ _ hk0]
          · rw [if_neg hnv, alookup_setVal_ne _ _ _ _ hk0]
        rw [ih _ t3 res t2 k h hkrest, heq]

/-- Mapping normalization only ever emits non-nullish values. -/
theorem normValues_nonnullish (ms : Schema) (kvs : Attrs) :
    ∀ (t : EntityTable) (res : Attrs) (t2 : EntityTable),
      normalizeValues ms kvs t = .ok (res, t2) →
      ∀ p ∈ res, nullish p.2 = false := by
  induction kvs with
  | nil =>
    intro t res t2 h p hp
    simp only [normalizeValues, Except.ok.injEq, Prod.mk.injEq] at h
    rw [← h.1] at hp
    exact absurd hp (List.not_mem_nil _)
  | cons q rest ih =>
    obtain ⟨k0, v0⟩ := q
    intro t res t2 h p hp
    simp only [normalizeValues] at h
    cases hn : normalizeV ms v0 t with
    | error e => simp [hn] at h
    | ok q2 =>
      obtain ⟨nv, t3⟩ := q2
      simp only [hn] at h
      cases hr : normalizeValues ms rest t3 with
      | error e => simp [hr] at h
      | ok q3 =>
        obtain ⟨res2, t4⟩ := q3
        simp only [hr, Except.ok.injEq, Prod.mk.injEq] at h
        rw [← h.1] at hp
        by_cases hnv : nullish nv = true
        · rw [if_pos hnv] at hp
          exact ih t3 res2 t4 hr p hp
        · rw [if_neg hnv] at hp
          rcases List.mem_cons.mp hp with hhead | htail
          · rw [hhead]
            simpa using hnv
          · exact ih t3 res2 t4 hr p htail

/-- Claim C6: during Composite and Mapping normalization every member whose
normalized value is null or undefined is dropped from the result (never
included bound to a nullish value), and members with no associated schema
pass through unchanged. -/
theorem claim_C6 :
    (∀ (members : List (String × Schema)) (kvs : Attrs) (t : EntityTable)
        (res : Attrs) (t2 : EntityTable),
      normalizeMembers members kvs t = .ok (res, t2) →
      (∀ k ms, (k, ms) ∈ members →
        (alookup res k = none
          ∨ ∃ v, alookup res k = some v ∧ nullish v = false))
      ∧ (∀ k, hasKey members k = false → alookup res k = alookup kvs k))
    ∧ (∀ (ms : Schema) (kvs : Attrs) (t : EntityTable) (res : Attrs)
        (t2 : EntityTable),
      normalizeValues ms kvs t = .ok (res, t2) →
      ∀ p ∈ res, nullish p.2 = false) := by
  refine ⟨fun members kvs t res t2 h => ⟨?_, ?_⟩, ?_⟩
  · exact normMembers_memberVals members kvs t res t2 h
  · exact fun k hk => normMembers_passthrough members kvs t res t2 k h hk
  · exact fun ms kvs t res t2 h => normValues_nonnullish ms kvs t res t2 h

/-- Witness for claim C6: a composite with a declared member normalizing to
null (dropped) and an undeclared passthrough member, plus a mapping whose only
value normalizes to null (dropped). -/
theorem claim_C6_witness :
    normalizeMembers [("a", Schema.entity "user" pkId [])]
        [("a", JSON.null), ("c", JSON.num 5)] []
      = .ok ([("c", JSON.num 5)], [])
    ∧ (alookup [("c", JSON.num 5)] "a" = none
        ∨ ∃ v, alookup [("c", JSON.num 5)] "a" = some v ∧ nullish v = false)
    ∧ alookup [("c", JSON.num 5)] "c"
        = alookup [("a", JSON.null), ("c", JSON.num 5)] "c"
    ∧ normalizeValues (Schema.entity "user" pkId []) [("x", JSON.null)] []
        = .ok ([], [])
    ∧ ∀ p ∈ ([] : Attrs), nullish p.2 = false := by
  have h1 : normalizeMembers [("a", Schema.entity "user" pkId [])]
      [("a", JSON.null), ("c", JSON.num 5)] []
      = .ok ([("c", JSON.num 5)], []) := by
    simp [normalizeMembers, normalizeV, alookup, nullish, JSON.isNull,
      JSON.isUndefined, removeKey]
  have h2 : normalizeValues (Schema.entity "user" pkId []) [("x", JSON.null)]
      [] = .ok ([], []) := by
    simp [normalizeValues, normalizeV, nullish, JSON.isNull, JSON.isUndefined]
  refine ⟨h1,
    (claim_C6.1 _ _ _ _ _ h1).1 "a" (Schema.entity "user" pkId [])
      (List.mem_singleton.mpr rfl),
    (claim_C6.1 _ _ _ _ _ h1).2 "c" rfl,
    h2, claim_C6.2 _ _ _ _ _ h2⟩

/-- Lookup through a value-only map of an association list. -/
theorem alookup_map_val {α β : Type} (f : α → β) (l : List (String × α))
    (k : String) :
    alookup (l.map (fun p => (p.1, f p.2))) k = (alookup l k).map f := by
  induction l with
  | nil => rfl
  | cons p rest ih =>
    obtain ⟨k0, v0⟩ := p
    by_cases hk : k0 = k
    · simp [alookup_cons, hk]
    · simp [alookup_cons, hk, ih]

/-- Key test through a value-only map of an association list. -/
theorem hasKey_map_val {α β : Type} (f : α → β) (l : List (String × α))
    (k : String) :
    hasKey (l.map (fun p => (p.1, f p.2))) k = hasKey l k := by
  induction l with
  | nil => rfl
  | cons p rest ih =>
    obtain ⟨k0, v0⟩ := p
    simp [hasKey_cons, ih]

/-- Key distinctness through a value-only map of an association list. -/
theorem nodupKeys_map_val {α β : Type} (f : α → β) (l : List (String × α)) :
    nodupKeys (l.map (fun p => (p.1, f p.2))) = nodupKeys l := by
  induction l with
  | nil => rfl
  | cons p rest ih =>
    obtain ⟨k0, v0⟩ := p
    simp [nodupKeys_cons, hasKey_map_val, ih]

/-- Lookup across an append takes the first list's binding first. -/
theorem alookup_append {α : Type} (a b : List (String × α)) (k : String) :
    alookup (a ++ b) k = (alookup a k).or (alookup b k) := by
  induction a with
  | nil => simp [alookup_nil]
  | cons p rest ih =>
    obtain ⟨k0, v0⟩ := p
    by_cases hk : k0 = k
    · simp [alookup_cons, hk]
    · simp [alookup_cons, hk, ih]

/-- Key test across an append. -/
theorem hasKey_append {α : Type} (a b : List (String × α)) (k : String) :
    hasKey (a ++ b) k = (hasKey a k || hasKey b k) := by
  induction a with
  | nil => simp [hasKey_nil]
  | cons p rest ih =>
    obtain ⟨k0, v0⟩ := p
    simp [hasKey_cons, ih, Bool.or_assoc]

/-- Key test is insensitive to reversal. -/
theorem hasKey_reverse {α : Type} (l : List (String × α)) (k : String) :
    hasKey l.reverse k = hasKey l k := by
  induction l with
  | nil => rfl
  | cons p rest ih =>
    obtain ⟨k0, v0⟩ := p
    simp [List.reverse_cons, hasKey_append, hasKey_cons, hasKey_nil, ih,
      Bool.or_comm]

/-- A key that is not present looks up to nothing. -/
theorem alookup_eq_none_of_hasKey_false {α : Type} (l : List (String × α))
    (k : String) (h : hasKey l k = false) : alookup l k = none := by
  induction l with
  | nil => rfl
  | cons p rest ih =>
    obtain ⟨k0, v0⟩ := p
    rw [hasKey_cons] at h
    rcases Bool.or_eq_false_iff.mp h with ⟨h1, h2⟩
    have hk : k0 ≠ k := by simpa using h1
    simp [alookup_cons, hk, ih h2]

/-- With distinct keys, lookup is insensitive to reversal. -/
theorem alookup_reverse {α : Type} (l : List (String × α)) (k : String)
    (h : nodupKeys l = true) : alookup l.reverse k = alookup l k := by
  induction l with
  | nil => rfl
  | cons p rest ih =>
    obtain ⟨k0, v0⟩ := p
    rw [nodupKeys_cons, Bool.and_eq_true] at h
    obtain ⟨h1, h2⟩ := h
    have h1a : hasKey rest k0 = false := by simpa using h1
    rw [List.reverse_cons, alookup_append, ih h2, alookup_cons]
    by_cases hk : k0 = k
    · subst hk
      rw [alookup_eq_none_of_hasKey_false rest k0 h1a]
      simp [alookup_cons]
    · simp [alookup_cons, hk, alookup_nil, Option.or_none]

/-- A successful lookup is a membership. -/
theorem alookup_mem {α : Type} (l : List (String × α)) (k : String) (v : α)
    (h : alookup l k = some v) : (k, v) ∈ l := by
  induction l with
  | nil => simp [alookup_nil] at h
  | cons p rest ih =>
    obtain ⟨k0, v0⟩ := p
    by_cases hk : k0 = k
    · rw [alookup_cons, if_pos hk] at h
      injection h with hv
      subst hk
      subst hv
      exact List.mem_cons_self _ _
    · rw [alookup_cons, if_neg hk] at h
      exact List.mem_cons_of_mem _ (ih h)

/-- Updates commute with value-only maps when the new value is mapped too. -/
theorem setVal_map_val {α β : Type} (f : α → β) (l : List (String × α))
    (key : String) (v : α) :
    (setVal l key v).map (fun p => (p.1, f p.2))
      = setVal (l.map (fun p => (p.1, f p.2))) key (f v) := by
  induction l with
  | nil => rfl
  | cons p rest ih =>
    obtain ⟨k0, v0⟩ := p
    by_cases hk : k0 = key
    · simp [setVal_cons, hk, ih]
    · simp [setVal_cons, hk, ih]

/-- Updates commute with reversal. -/
theorem setVal_reverse {α : Type} (l : List (String × α)) (key : String)
    (v : α) : setVal l.reverse key v = (setVal l key v).reverse := by
  induction l with
  | nil => rfl
  | cons p rest ih =>
    obtain ⟨k0, v0⟩ := p
    have happ : ∀ (a b : List (String × α)),
        setVal (a ++ b) key v = setVal a key v ++ setVal b key v := by
      intro a b
      induction a with
      | nil => rfl
      | cons q resta iha =>
        obtain ⟨k1, w1⟩ := q
        simp [setVal_cons, iha]
    simp [List.reverse_cons, happ, setVal_cons, setVal_nil, ih]

/-- Updating preserves the key set. -/
theorem hasKey_setVal {α : Type} (l : List (String × α)) (key k : String)
    (v : α) : hasKey (setVal l key v) k = hasKey l k := by
  induction l with
  | nil => rfl
  | cons p rest ih =>
    obtain ⟨k0, v0⟩ := p
    by_cases hk : k0 = key
    · simp [setVal_cons, hk, hasKey_cons, ih]
    · simp [setVal_cons, hk, hasKey_cons, ih]

/-- Updating preserves key distinctness. -/
theorem nodupKeys_setVal {α : Type} (l : List (String × α)) (key : String)
    (v : α) : nodupKeys (setVal l key v) = nodupKeys l := by
  induction l with
  | nil => rfl
  | cons p rest ih =>
    obtain ⟨k0, v0⟩ := p
    by_cases hk : k0 = key
    · simp [setVal_cons, hk, nodupKeys_cons, hasKey_setVal, ih]
    · simp [setVal_cons, hk, nodupKeys_cons, hasKey_setVal, ih]

/-- An absent key differs from the first component of every element. -/
theorem hasKey_false_ne {α : Type} (l : List (String × α)) (k : String)
    (h : hasKey l k = false) : ∀ p ∈ l, p.1 ≠ k := by
  induction l with
  | nil => intro p hp; exact absurd hp (List.not_mem_nil _)
  | cons q rest ih =>
    obtain ⟨k0, v0⟩ := q
    rw [hasKey_cons] at h
    rcases Bool.or_eq_false_iff.mp h with ⟨h1, h2⟩
    intro p hp
    rcases List.mem_cons.mp hp with hhead | htail
    · rw [hhead]
      simpa using h1
    · exact ih h2 p htail

/-- The pairwise conversion is the value-only map of the conversion. -/
theorem fromJSPairs_eq_map (l : List (String × JSON)) :
    fromJSPairs l = l.map (fun p => (p.1, fromJS p.2)) := by
  induction l with
  | nil => simp [fromJSPairs]
  | cons p rest ih =>
    obtain ⟨k, v⟩ := p
    simp [fromJSPairs, ih]

/-- The elementwise conversion is the map of the conversion. -/
theorem fromJSList_eq_map (l : List JSON) : fromJSList l = l.map fromJS := by
  induction l with
  | nil => simp [fromJSList]
  | cons v rest ih => simp [fromJSList, ih]

/-- Conversion unfolding on null. -/
theorem fromJS_null : fromJS .null = .null := by simp [fromJS]

/-- Conversion unfolding on undefined. -/
theorem fromJS_undefined : fromJS .undefined = .undefined := by simp [fromJS]

/-- Conversion unfolding on booleans. -/
theorem fromJS_bool (b : Bool) : fromJS (.bool b) = .bool b := by simp [fromJS]

/-- Conversion unfolding on numbers. -/
theorem fromJS_num (n : Int) : fromJS (.num n) = .num n := by simp [fromJS]

/-- Conversion unfolding on strings. -/
theorem fromJS_str (s : String) : fromJS (.str s) = .str s := by simp [fromJS]

/-- Conversion unfolding on objects. -/
theorem fromJS_obj (kvs : List (String × JSON)) :
    fromJS (.obj kvs) = .obj (fromJSPairs kvs).reverse := by simp [fromJS]

/-- Conversion unfolding on arrays. -/
theorem fromJS_arr (l : List JSON) :
    fromJS (.arr l) = .arr (fromJSList l) := by simp [fromJS]

/-- The conversion preserves nullishness. -/
theorem nullish_fromJS (v : JSON) : nullish (fromJS v) = nullish v := by
  cases v <;> simp [fromJS_null, fromJS_undefined, fromJS_bool, fromJS_num,
    fromJS_str, fromJS_obj, fromJS_arr, nullish, JSON.isNull, JSON.isUndefined]

/-- The conversion preserves the entity-key coercion. -/
theorem toKey_fromJS (v : JSON) : toKey (fromJS v) = toKey v := by
  cases v <;> simp [fromJS_null, fromJS_undefined, fromJS_bool, fromJS_num,
    fromJS_str, fromJS_obj, fromJS_arr, toKey]

/-- Lookup in the immutable representation of a well-formed object resolves
to the conversion of the plain lookup. -/
theorem alookup_fromJSPairs_rev (l : List (String × JSON)) (k : String)
    (h : nodupKeys l = true) :
    alookup (fromJSPairs l).reverse k = (alookup l k).map fromJS := by
  have hn : nodupKeys (l.map (fun p => (p.1, fromJS p.2))) = true := by
    rw [nodupKeys_map_val]
    exact h
  rw [fromJSPairs_eq_map, alookup_reverse _ _ hn, alookup_map_val]

/-- Updating the immutable representation is the immutable representation of
the plain update. -/
theorem setVal_fromJSPairs_rev (l : List (String × JSON)) (key : String)
    (v : JSON) :
    setVal (fromJSPairs l).reverse key (fromJS v)
      = (fromJSPairs (setVal l key v)).reverse := by
  rw [fromJSPairs_eq_map, fromJSPairs_eq_map, setVal_reverse, ← setVal_map_val]

/-- Well-formedness of an object splits into key distinctness and member
well-formedness. -/
theorem wfJson_obj (kvs : List (String × JSON)) :
    wfJson (.obj kvs) = true ↔ (nodupKeys kvs = true ∧ wfPairs kvs = true) := by
  simp [wfJson, Bool.and_eq_true]

/-- Well-formedness of an array is well-formedness of its elements. -/
theorem wfJson_arr (l : List JSON) :
    wfJson (.arr l) = true ↔ wfList l = true := by
  simp [wfJson]

/-- Every member value of a well-formed pair list is well formed. -/
theorem wfPairs_mem (l : List (String × JSON)) (h : wfPairs l = true) :
    ∀ p ∈ l, wfJson p.2 = true := by
  induction l with
  | nil => intro p hp; exact absurd hp (List.not_mem_nil _)
  | cons q rest ih =>
    obtain ⟨k, v⟩ := q
    simp only [wfPairs, Bool.and_eq_true] at h
    intro p hp
    rcases List.mem_cons.mp hp with hhead | htail
    · rw [hhead]
      exact h.1
    · exact ih h.2 p htail

/-- Every element of a well-formed element list is well formed. -/
theorem wfList_mem (l : List JSON) (h : wfList l = true) :
    ∀ e ∈ l, wfJson e = true := by
  induction l with
  | nil => intro e he; exact absurd he (List.not_mem_nil _)
  | cons v rest ih =>
    simp only [wfList, Bool.and_eq_true] at h
    intro e he
    rcases List.mem_cons.mp he with hhead | htail
    · rw [hhead]
      exact h.1
    · exact ih h.2 e htail

/-- Every member schema of a well-formed schema list is well formed. -/
theorem wfSchemaList_mem (l : List (String × Schema))
    (h : wfSchemaList l = true) : ∀ p ∈ l, wfSchema p.2 = true := by
  induction l with
  | nil => intro p hp; exact absurd hp (List.not_mem_nil _)
  | cons q rest ih =>
    obtain ⟨k, s⟩ := q
    simp only [wfSchemaList, Bool.and_eq_true] at h
    intro p hp
    rcases List.mem_cons.mp hp with hhead | htail
    · rw [hhead]
      exact h.1
    · exact ih h.2 p htail

/-- A value looked up in a well-formed pair list is well formed. -/
theorem wfPairs_alookup (l : List (String × JSON)) (k : String) (v : JSON)
    (h : wfPairs l = true) (hl : alookup l k = some v) : wfJson v = true :=
  wfPairs_mem l h (k, v) (alookup_mem _ _ _ hl)

/-- Lookup in the immutable representation of a well-formed row. -/
theorem alookup_fromJSRow (row : Attrs) (k : String)
    (h : nodupKeys row = true) :
    alookup (fromJSRow row) k = (alookup row k).map fromJS := by
  have hn : nodupKeys (row.map (fun p => (p.1, fromJS p.2))) = true := by
    rw [nodupKeys_map_val]
    exact h
  simp only [fromJSRow]
  rw [alookup_reverse _ _ hn, alookup_map_val]

/-- Lookup in the immutable representation of a well-formed table. -/
theorem alookup_fromJSTable (t : EntityTable) (name : String)
    (h : wfTable t = true) :
    alookup (fromJSTable t) name = (alookup t name).map fromJSRow := by
  simp only [wfTable, Bool.and_eq_true] at h
  obtain ⟨h1, h2⟩ := h
  have hn : nodupKeys (t.map (fun p => (p.1, fromJSRow p.2))) = true := by
    rw [nodupKeys_map_val]
    exact h1
  simp only [fromJSTable]
  rw [alookup_reverse _ _ hn, alookup_map_val]

/-- A row looked up in a well-formed table has distinct keys and well-formed
records. -/
theorem wfTable_row (t : EntityTable) (name : String) (row : Attrs)
    (h : wfTable t = true) (hl : alookup t name = some row) :
    nodupKeys row = true ∧ wfPairs row = true := by
  simp only [wfTable, Bool.and_eq_true] at h
  obtain ⟨h1, h2⟩ := h
  have hm := alookup_mem _ _ _ hl
  have hr := List.all_eq_true.mp h2 _ hm
  simp only [wfRow, Bool.and_eq_true] at hr
  exact hr

/-- Member-wise denormalization agrees between the plain and the immutable
representation of a well-formed input object, given agreement of every
declared member schema. -/
theorem denormMembers_fromJS (t : EntityTable) (vis : Visited)
    (ht : wfTable t = true) (members : List (String × Schema)) :
    ∀ (kvs : Attrs),
      nodupKeys members = true →
      (∀ p ∈ members, DenormAgrees p.2) →
      nodupKeys kvs = true →
      (∀ p ∈ members, ∀ v, alookup kvs p.1 = some v → wfJson v = true) →
      denormMembers members (fromJSPairs kvs).reverse (fromJSTable t) vis
        = ((fromJSPairs (denormMembers members kvs t vis).1).reverse,
           (denormMembers members kvs t vis).2) := by
  induction members with
  | nil =>
    intro kvs hm hDA hk hv
    simp only [denormMembers]
  | cons q rest ih =>
    obtain ⟨k0, ms⟩ := q
    intro kvs hm hDA hk hv
    rw [nodupKeys_cons, Bool.and_eq_true] at hm
    obtain ⟨hm1, hm2⟩ := hm
    have hm1a : hasKey rest k0 = false := by simpa using hm1
    simp only [denormMembers]
    rw [alookup_fromJSPairs_rev kvs k0 hk]
    cases hl : alookup kvs k0 with
    | none =>
      simp only [hl, Option.map_none']
      exact ih kvs hm2 (fun p hp => hDA p (List.mem_cons_of_mem _ hp)) hk
        (fun p hp v hv2 => hv p (List.mem_cons_of_mem _ hp) v hv2)
    | some v =>
      simp only [hl, Option.map_some']
      have hwv : wfJson v = true := hv (k0, ms) (List.mem_cons_self _ _) v hl
      have hDAms := hDA (k0, ms) (List.mem_cons_self _ _)
      simp only [DenormAgrees] at hDAms
      simp only [hDAms v t vis hwv ht]
      rw [setVal_fromJSPairs_rev]
      rw [ih (setVal kvs k0 (denormalize ms v t vis).1) hm2
        (fun p hp => hDA p (List.mem_cons_of_mem _ hp))
        (by rw [nodupKeys_setVal]; exact hk)
        (fun p hp w hw => by
          rw [alookup_setVal_ne _ _ _ _ (hasKey_false_ne rest k0 hm1a p hp)]
            at hw
          exact hv p (List.mem_cons_of_mem _ hp) w hw)]

/-- Element-wise denormalization agrees between the plain and the immutable
representation of well-formed elements. -/
theorem denormElems_fromJS (t : EntityTable) (vis : Visited)
    (ht : wfTable t = true) (ms : Schema) (hDA : DenormAgrees ms) :
    ∀ (elems : List JSON), (∀ e ∈ elems, wfJson e = true) →
      denormElems ms (fromJSList elems) (fromJSTable t) vis
        = (fromJSList (denormElems ms elems t vis).1,
           (denormElems ms elems t vis).2) := by
  intro elems
  induction elems with
  | nil =>
    intro h
    simp only [fromJSList, denormElems]
  | cons e rest ih =>
    intro h
    have hDAe := hDA e t vis (h e (List.mem_cons_self _ _)) ht
    have hrest := ih (fun x hx => h x (List.mem_cons_of_mem _ hx))
    simp only [fromJSList, denormElems, hDAe, hrest]

/-- Value-wise denormalization agrees between the plain and the pairwise
converted representation of a well-formed object body. -/
theorem denormValues_fromJSPairs (t : EntityTable) (vis : Visited)
    (ht : wfTable t = true) (ms : Schema) (hDA : DenormAgrees ms) :
    ∀ (kvs : Attrs), (∀ p ∈ kvs, wfJson p.2 = true) →
      denormValues ms (fromJSPairs kvs) (fromJSTable t) vis
        = (fromJSPairs (denormValues ms kvs t vis).1,
           (denormValues ms kvs t vis).2) := by
  intro kvs
  induction kvs with
  | nil =>
    intro h
    simp only [fromJSPairs, denormValues]
  | cons q rest ih =>
    obtain ⟨k, v⟩ := q
    intro h
    have hDAv := hDA v t vis (h (k, v) (List.mem_cons_self _ _)) ht
    have hrest := ih (fun x hx => h x (List.mem_cons_of_mem _ hx))
    simp only [fromJSPairs, denormValues, hDAv, hrest]

/-- Value-wise denormalization distributes over appending (no state is
threaded between values). -/
theorem denormValues_append (ms : Schema) (t : EntityTable) (vis : Visited) :
    ∀ (a b : Attrs),
      denormValues ms (a ++ b) t vis
        = ((denormValues ms a t vis).1 ++ (denormValues ms b t vis).1,
           (denormValues ms a t vis).2 && (denormValues ms b t vis).2) := by
  intro a b
  induction a with
  | nil => simp [denormValues]
  | cons q rest ih =>
    obtain ⟨k, v⟩ := q
    simp only [List.cons_append, denormValues, ih]
    simp [Bool.and_assoc]

/-- Value-wise denormalization commutes with reversing the input object. -/
theorem denormValues_reverse (ms : Schema) (t : EntityTable) (vis : Visited) :
    ∀ (l : Attrs),
      denormValues ms l.reverse t vis
        = ((denormValues ms l t vis).1.reverse,
           (denormValues ms l t vis).2) := by
  intro l
  induction l with
  | nil => simp [denormValues]
  | cons q rest ih =>
    obtain ⟨k, v⟩ := q
    rw [List.reverse_cons, denormValues_append, ih]
    simp only [denormValues]
    simp [List.reverse_cons, Bool.and_comm]

/-- A nullish input denormalizes to itself, found, under every schema. -/
theorem denormalize_nullish (s : Schema) (input : JSON) (t : EntityTable)
    (vis : Visited) (h : nullish input = true) :
    denormalize s input t vis = (input, true) := by
  rw [denormalize.eq_def, if_pos h]

/-- Unfolding of entity denormalization once the key is resolved. -/
theorem denormalize_entity_eq (n : String) (pk : JSON → Option String)
    (fields : List (String × Schema)) (input : JSON) (t : EntityTable)
    (vis : Visited) (key : String)
    (h1 : nullish input = false) (h2 : toKey input = some key) :
    denormalize (.entity n pk fields) input t vis =
      match alookup t n with
      | none => (.undefined, false)
      | some row =>
        match alookup row key with
        | none => (.undefined, false)
        | some record =>
          if vis.contains (n, key) then (record, true)
          else
            match record with
            | .obj rf =>
              (.obj (denormMembers fields rf t ((n, key) :: vis)).1,
               (denormMembers fields rf t ((n, key) :: vis)).2)
            | other => (other, true) := by
  have hn : ¬ (nullish input = true) := by
    rw [h1]
    exact Bool.false_ne_true
  rw [denormalize.eq_def, if_neg hn, h2]

/-- Unfolding of entity denormalization on an input with no usable key. -/
theorem denormalize_entity_nokey (n : String) (pk : JSON → Option String)
    (fields : List (String × Schema)) (input : JSON) (t : EntityTable)
    (vis : Visited) (h1 : nullish input = false) (h2 : toKey input = none) :
    denormalize (.entity n pk fields) input t vis = (.undefined, false) := by
  have hn : ¬ (nullish input = true) := by
    rw [h1]
    exact Bool.false_ne_true
  rw [denormalize.eq_def, if_neg hn, h2]

/-- Unfolding of composite denormalization on an object input. -/
theorem denormalize_object_obj (members : List (String × Schema))
    (kvs : Attrs) (t : EntityTable) (vis : Visited) :
    denormalize (.object members) (.obj kvs) t vis
      = (.obj (denormMembers members kvs t vis).1,
         (denormMembers members kvs t vis).2) := by
  rw [denormalize.eq_def]
  rfl

/-- A non-object non-nullish input passes a composite schema through. -/
theorem denormalize_object_passthrough (members : List (String × Schema))
    (input : JSON) (t : EntityTable) (vis : Visited)
    (h1 : nullish input = false)
    (h2 : match input with | .obj _ => False | _ => True) :
    denormalize (.object members) input t vis = (input, true) := by
  have hn : ¬ (nullish input = true) := by
    rw [h1]
    exact Bool.false_ne_true
  rw [denormalize.eq_def, if_neg hn]
  cases input with
  | obj kvs => exact h2.elim
  | null => rfl
  | undefined => rfl
  | bool b => rfl
  | num m => rfl
  | str s => rfl
  | arr l => rfl

/-- Unfolding of collection denormalization on an array input. -/
theorem denormalize_collection_arr (ms : Schema) (l : List JSON)
    (t : EntityTable) (vis : Visited) :
    denormalize (.collection ms) (.arr l) t vis
      = (.arr (denormElems ms l t vis).1, (denormElems ms l t vis).2) := by
  rw [denormalize.eq_def]
  rfl

/-- A non-array non-nullish input is not found under a collection schema. -/
theorem denormalize_collection_notfound (ms : Schema) (input : JSON)
    (t : EntityTable) (vis : Visited) (h1 : nullish input = false)
    (h2 : match input with | .arr _ => False | _ => True) :
    denormalize (.collection ms) input t vis = (.undefined, false) := by
  have hn : ¬ (nullish input = true) := by
    rw [h1]
    exact Bool.false_ne_true
  rw [denormalize.eq_def, if_neg hn]
  cases input with
  | arr l => exact h2.elim
  | null => rfl
  | undefined => rfl
  | bool b => rfl
  | num m => rfl
  | str s => rfl
  | obj kvs => rfl

/-- Unfolding of mapping denormalization on an object input. -/
theorem denormalize_mapping_obj (ms : Schema) (kvs : Attrs) (t : EntityTable)
    (vis : Visited) :
    denormalize (.mapping ms) (.obj kvs) t vis
      = (.obj (denormValues ms kvs t vis).1,
         (denormValues ms kvs t vis).2) := by
  rw [denormalize.eq_def]
  rfl

/-- A non-object non-nullish input passes a mapping schema through. -/
theorem denormalize_mapping_passthrough (ms : Schema) (input : JSON)
    (t : EntityTable) (vis : Visited) (h1 : nullish input = false)
    (h2 : match input with | .obj _ => False | _ => True) :
    denormalize (.mapping ms) input t vis = (input, true) := by
  have hn : ¬ (nullish input = true) := by
    rw [h1]
    exact Bool.false_ne_true
  rw [denormalize.eq_def, if_neg hn]
  cases input with
  | obj kvs => exact h2.elim
  | null => rfl
  | undefined => rfl
  | bool b => rfl
  | num m => rfl
  | str s => rfl
  | arr l => rfl

/-- Every well-formed schema denormalizes identically over the plain and the
immutable representations. -/
theorem denorm_rep_invariant :
    ∀ s, wfSchema s = true → DenormAgrees s := by
  refine schemaInduction (fun s => wfSchema s = true → DenormAgrees s)
    ?_ ?_ ?_ ?_
  · -- entity
    intro n pk fields hIH hs
    simp only [wfSchema, Bool.and_eq_true] at hs
    obtain ⟨hnf, hwfl⟩ := hs
    have hDAf : ∀ p ∈ fields, DenormAgrees p.2 :=
      fun p hp => hIH p hp (wfSchemaList_mem fields hwfl p hp)
    intro input t vis hi ht
    by_cases hnull : nullish input = true
    · rw [denormalize_nullish _ _ _ _ hnull,
        denormalize_nullish _ _ _ _ (by rw [nullish_fromJS]; exact hnull)]
    · have hnf2 : nullish input = false := by simpa using hnull
      cases hk : toKey input with
      | none =>
        rw [denormalize_entity_nokey _ _ _ _ _ _ hnf2 hk,
          denormalize_entity_nokey _ _ _ _ _ _
            (by rw [nullish_fromJS]; exact hnf2)
            (by rw [toKey_fromJS]; exact hk)]
        simp [fromJS_undefined]
      | some key =>
        rw [denormalize_entity_eq n pk fields input t vis key hnf2 hk,
          denormalize_entity_eq n pk fields (fromJS input) (fromJSTable t)
            vis key (by rw [nullish_fromJS]; exact hnf2)
            (by rw [toKey_fromJS]; exact hk)]
        rw [alookup_fromJSTable t n ht]
        cases hrow : alookup t n with
        | none => simp [fromJS_undefined]
        | some row =>
          simp only [Option.map_some']
          obtain ⟨hrnd, hrwf⟩ := wfTable_row t n row ht hrow
          rw [alookup_fromJSRow row key hrnd]
          cases hrec : alookup row key with
          | none => simp [fromJS_undefined]
          | some record =>
            simp only [Option.map_some']
            by_cases hvis : vis.contains (n, key) = true
            · rw [if_pos hvis, if_pos hvis]
            · rw [if_neg hvis, if_neg hvis]
              have hrecwf : wfJson record = true :=
                wfPairs_alookup row key record hrwf hrec
              cases record with
              | obj rf =>
                obtain ⟨hrfnd, hrfwf⟩ := (wfJson_obj rf).mp hrecwf
                have hdm := denormMembers_fromJS t ((n, key) :: vis) ht
                  fields rf hnf hDAf hrfnd
                  (fun p hp v hv => wfPairs_alookup rf p.1 v hrfwf hv)
                simp [fromJS_obj, hdm]
              | null => simp [fromJS_null]
              | undefined => simp [fromJS_undefined]
              | bool b => simp [fromJS_bool]
              | num m => simp [fromJS_num]
              | str s2 => simp [fromJS_str]
              | arr l => simp [fromJS_arr]
  · -- object
    intro members hIH hs
    simp only [wfSchema, Bool.and_eq_true] at hs
    obtain ⟨hnm, hwfl⟩ := hs
    have hDAm : ∀ p ∈ members, DenormAgrees p.2 :=
      fun p hp => hIH p hp (wfSchemaList_mem members hwfl p hp)
    intro input t vis hi ht
    cases input with
    | null =>
      rw [fromJS_null,
        denormalize_nullish (.object members) .null (fromJSTable t) vis rfl,
        denormalize_nullish (.object members) .null t vis rfl]
      simp [fromJS_null]
    | undefined =>
      rw [fromJS_undefined,
        denormalize_nullish (.object members) .undefined (fromJSTable t) vis
          rfl,
        denormalize_nullish (.object members) .undefined t vis rfl]
      simp [fromJS_undefined]
    | bool b =>
      rw [fromJS_bool,
        denormalize_object_passthrough members (.bool b) (fromJSTable t) vis
          rfl True.intro,
        denormalize_object_passthrough members (.bool b) t vis rfl
          True.intro]
      simp [fromJS_bool]
    | num m =>
      rw [fromJS_num,
        denormalize_object_passthrough members (.num m) (fromJSTable t) vis
          rfl True.intro,
        denormalize_object_passthrough members (.num m) t vis rfl True.intro]
      simp [fromJS_num]
    | str s2 =>
      rw [fromJS_str,
        denormalize_object_passthrough members (.str s2) (fromJSTable t) vis
          rfl True.intro,
        denormalize_object_passthrough members (.str s2) t vis rfl
          True.intro]
      simp [fromJS_str]
    | arr l =>
      rw [fromJS_arr,
        denormalize_object_passthrough members (.arr (fromJSList l))
          (fromJSTable t) vis rfl True.intro,
        denormalize_object_passthrough members (.arr l) t vis rfl True.intro]
      simp [fromJS_arr]
    | obj kvs =>
      rw [fromJS_obj,
        denormalize_object_obj members ((fromJSPairs kvs).reverse)
          (fromJSTable t) vis,
        denormalize_object_obj members kvs t vis]
      obtain ⟨hknd, hkwf⟩ := (wfJson_obj kvs).mp hi
      rw [denormMembers_fromJS t vis ht members kvs hnm hDAm hknd
        (fun p hp v hv => wfPairs_alookup kvs p.1 v hkwf hv)]
      simp [fromJS_obj]
  · -- collection
    intro ms hIH hs
    simp only [wfSchema] at hs
    have hDA := hIH hs
    intro input t vis hi ht
    cases input with
    | null =>
      rw [fromJS_null,
        denormalize_nullish (.collection ms) .null (fromJSTable t) vis rfl,
        denormalize_nullish (.collection ms) .null t vis rfl]
      simp [fromJS_null]
    | undefined =>
      rw [fromJS_undefined,
        denormalize_nullish (.collection ms) .undefined (fromJSTable t) vis
          rfl,
        denormalize_nullish (.collection ms) .undefined t vis rfl]
      simp [fromJS_undefined]
    | bool b =>
      rw [fromJS_bool,
        denormalize_collection_notfound ms (.bool b) (fromJSTable t) vis rfl
          True.intro,
        denormalize_collection_notfound ms (.bool b) t vis rfl True.intro]
      simp [fromJS_undefined]
    | num m =>
      rw [fromJS_num,
        denormalize_collection_notfound ms (.num m) (fromJSTable t) vis rfl
          True.intro,
        denormalize_collection_notfound ms (.num m) t vis rfl True.intro]
      simp [fromJS_undefined]
    | str s2 =>
      rw [fromJS_str,
        denormalize_collection_notfound ms (.str s2) (fromJSTable t) vis rfl
          True.intro,
        denormalize_collection_notfound ms (.str s2) t vis rfl True.intro]
      simp [fromJS_undefined]
    | obj kvs =>
      rw [fromJS_obj,
        denormalize_collection_notfound ms (.obj ((fromJSPairs kvs).reverse))
          (fromJSTable t) vis rfl True.intro,
        denormalize_collection_notfound ms (.obj kvs) t vis rfl True.intro]
      simp [fromJS_undefined]
    | arr l =>
      rw [fromJS_arr,
        denormalize_collection_arr ms (fromJSList l) (fromJSTable t) vis,
        denormalize_collection_arr ms l t vis]
      rw [denormElems_fromJS t vis ht ms hDA l
        (fun e he => wfList_mem l ((wfJson_arr l).mp hi) e he)]
      simp [fromJS_arr]
  · -- mapping
    intro ms hIH hs
    simp only [wfSchema] at hs
    have hDA := hIH hs
    intro input t vis hi ht
    cases input with
    | null =>
      rw [fromJS_null,
        denormalize_nullish (.mapping ms) .null (fromJSTable t) vis rfl,
        denormalize_nullish (.mapping ms) .null t vis rfl]
      simp [fromJS_null]
    | undefined =>
      rw [fromJS_undefined,
        denormalize_nullish (.mapping ms) .undefined (fromJSTable t) vis rfl,
        denormalize_nullish (.mapping ms) .undefined t vis rfl]
      simp [fromJS_undefined]
    | bool b =>
      rw [fromJS_bool,
        denormalize_mapping_passthrough ms (.bool b) (fromJSTable t) vis rfl
          True.intro,
        denormalize_mapping_passthrough ms (.bool b) t vis rfl True.intro]
      simp [fromJS_bool]
    | num m =>
      rw [fromJS_num,
        denormalize_mapping_passthrough ms (.num m) (fromJSTable t) vis rfl
          True.intro,
        denormalize_mapping_passthrough ms (.num m) t vis rfl True.intro]
      simp [fromJS_num]
    | str s2 =>
      rw [fromJS_str,
        denormalize_mapping_passthrough ms (.str s2) (fromJSTable t) vis rfl
          True.intro,
        denormalize_mapping_passthrough ms (.str s2) t vis rfl True.intro]
      simp [fromJS_str]
    | arr l =>
      rw [fromJS_arr,
        denormalize_mapping_passthrough ms (.arr (fromJSList l))
          (fromJSTable t) vis rfl True.intro,
        denormalize_mapping_passthrough ms (.arr l) t vis rfl True.intro]
      simp [fromJS_arr]
    | obj kvs =>
      rw [fromJS_obj,
        denormalize_mapping_obj ms ((fromJSPairs kvs).reverse)
          (fromJSTable t) vis,
        denormalize_mapping_obj ms kvs t vis]
      obtain ⟨hknd, hkwf⟩ := (wfJson_obj kvs).mp hi
      rw [denormValues_reverse ms (fromJSTable t) vis (fromJSPairs kvs)]
      rw [denormValues_fromJSPairs t vis ht ms hDA kvs
        (fun p hp => wfPairs_mem kvs hkwf p hp)]
      simp [fromJS_obj]

/-- Claim C5: for every well-formed schema, input tree and table snapshot,
denormalization against the immutable representation of the input and the
snapshot returns the immutable representation of the plain result with the
identical found flag: the two container representations denormalize
identically. -/
theorem claim_C5 (s : Schema) (input : JSON) (t : EntityTable)
    (hs : wfSchema s = true) (hi : wfJson input = true)
    (ht : wfTable t = true) :
    denormalizeSimple (fromJS input) s (fromJSTable t)
      = (fromJS (denormalizeSimple input s t).1,
         (denormalizeSimple input s t).2) := by
  simp only [denormalizeSimple]
  exact denorm_rep_invariant s hs input t [] hi ht

/-- Witness for claim C5: the test file's concrete schema, input and table. -/
theorem claim_C5_witness :
    wfSchema (Schema.object [("user", Schema.entity "user" pkId [])]) = true
    ∧ wfJson (JSON.obj [("user", JSON.num 1)]) = true
    ∧ wfTable [("user",
        [("1", JSON.obj [("id", JSON.num 1), ("name", JSON.str "Nacho")])])]
        = true
    ∧ denormalizeSimple (fromJS (JSON.obj [("user", JSON.num 1)]))
        (Schema.object [("user", Schema.entity "user" pkId [])])
        (fromJSTable [("user",
          [("1", JSON.obj [("id", JSON.num 1), ("name", JSON.str "Nacho")])])])
      = (fromJS (denormalizeSimple (JSON.obj [("user", JSON.num 1)])
            (Schema.object [("user", Schema.entity "user" pkId [])])
            [("user",
              [("1",
                JSON.obj [("id", JSON.num 1), ("name", JSON.str "Nacho")])])]).1,
         (denormalizeSimple (JSON.obj [("user", JSON.num 1)])
            (Schema.object [("user", Schema.entity "user" pkId [])])
            [("user",
              [("1",
                JSON.obj [("id", JSON.num 1), ("name", JSON.str "Nacho")])])]).2) := by
  have h1 : wfSchema (Schema.object [("user", Schema.entity "user" pkId [])])
      = true := by
    simp [wfSchema, wfSchemaList, nodupKeys, hasKey]
  have h2 : wfJson (JSON.obj [("user", JSON.num 1)]) = true := by
    simp [wfJson, wfPairs, nodupKeys, hasKey]
  have h3 : wfTable [("user",
      [("1", JSON.obj [("id", JSON.num 1), ("name", JSON.str "Nacho")])])]
      = true := by
    simp [wfTable, wfRow, wfPairs, wfJson, nodupKeys, hasKey]
  exact ⟨h1, h2, h3, claim_C5 _ _ _ h1 h2 h3⟩
